import Mathlib

/-!
Shallow embedding of the dotenv engine (Go, `dotenv.go` latest revision):
source classification data model, the lax parser, the interpolation engine,
priority sorting, the merge/dedup engine and the main source-processing loop.

Conventions:
* Go strings are `String` at the interfaces and `List Char` inside parsers.
* Go `map[string]T` is embedded as a function `String → Option T` updated
  functionally (later updates shadow earlier ones, as in Go).
* I/O (reading files, `os.Environ()`, `encoding/json.Unmarshal`) is factored
  into an explicit `World` record; the repository's own logic is translated
  directly from the source.
* Loops that scan a shrinking buffer are written with an explicit fuel
  argument equal to the buffer length; dedicated theorems show the fuel
  always suffices (this mirrors the Go loops `for len(data) > 0`).
-/

set_option autoImplicit false

namespace Dotenv

/-- One name/value pair with substitution-eligibility and tombstone markers
(Go struct `envvar`). -/
structure envvar where
  name : String
  val : String
  allowsubs : Bool
  tombstone : Bool
deriving DecidableEq, Repr

/-- Go `type sourcetype string` with its fixed set of constants. -/
inductive sourcetype where
  | notype | file | shell | raw | osenv | laxfile | jsonmap | pid
deriving DecidableEq, Repr

/-- Go `type sublevel int` (`neversub`, `maybesub`, `forcesub`). -/
inductive sublevel where
  | neversub | maybesub | forcesub
deriving DecidableEq, Repr

/-- Go struct `varsource`; `sublevel` is the per-source override pointer
(`nil` = absent). -/
structure varsource where
  data : String
  kind : sourcetype
  explicit : Bool
  optional : Bool
  sublevel : Option Dotenv.sublevel
deriving DecidableEq, Repr

/-- Precedence bucket of a source kind, from `inittyperank`/`rank`:
`raw=0, jsonmap=1, osenv=2, {file,shell,laxfile}=3`, everything else
(`pid`, `notype`) gets `typerankmax = 4`. -/
def sourcetype.rank : sourcetype → Nat
  | .raw => 0
  | .jsonmap => 1
  | .osenv => 2
  | .file => 3
  | .shell => 3
  | .laxfile => 3
  | _ => 4

/-- Default substitution policy per kind (Go `defaultsub`). -/
def sourcetype.defaultsub : sourcetype → sublevel
  | .shell => .maybesub
  | .laxfile => .maybesub
  | _ => .neversub

/-- Resolved substitution policy of a source (Go `getsublevel`). -/
def varsource.getsublevel (src : varsource) : Dotenv.sublevel :=
  src.sublevel.getD src.kind.defaultsub

/-- Go `parsevar`: `strings.SplitN(s, "=", 2)`; the part before the first
`=` is the name, the remainder the value; both empty pieces allowed. The
resulting assignment is substitution-ineligible and not a tombstone. -/
def parsevar (s : String) : envvar :=
  let nm := s.data.takeWhile (· != '=')
  match s.data.dropWhile (· != '=') with
  | '=' :: t => ⟨String.mk nm, String.mk t, false, false⟩
  | _ => ⟨String.mk nm, "", false, false⟩

/-! ### Character classes used by the Go regular expressions -/

/-- Horizontal whitespace `[^\S\n]` in Go regexp (`\s` minus newline). -/
def isHS (c : Char) : Bool :=
  c = ' ' || c = '\t' || c = '\r' || c = '\x0c'

/-- Go regexp `\s` = `[\t\n\f\r ]`. -/
def isReWS (c : Char) : Bool :=
  isHS c || c = '\n'

/-- A character allowed in a lax variable name: `[^\s=#]`. -/
def isNameChar (c : Char) : Bool :=
  !isReWS c && c != '=' && c != '#'

/-- Go regexp `\w` = `[0-9A-Za-z_]`, used for the `\b` boundary check. -/
def isWordChar (c : Char) : Bool :=
  c.isAlphanum || c = '_'

/-- `unicode.IsSpace` (used by `strings.TrimSpace`): `\t\n\v\f\r space`,
U+0085 and U+00A0 in Latin-1, plus the other Unicode `White_Space` code
points (U+1680, U+2000–U+200A, U+2028, U+2029, U+202F, U+205F, U+3000). -/
def isGoSpace (c : Char) : Bool :=
  isReWS c || c = '\x0b' || c = '\x85' || c = '\xa0' ||
    c = '\u1680' || ('\u2000' ≤ c && c ≤ '\u200a') ||
    c = '\u2028' || c = '\u2029' || c = '\u202f' || c = '\u205f' || c = '\u3000'

/-- `strings.TrimSpace`. -/
def trimSpace (l : List Char) : List Char :=
  ((l.dropWhile isGoSpace).reverse.dropWhile isGoSpace).reverse

/-! ### The matchers of the lax parser

Each Go regex used with `trimRegex`/`trimRegexMatches` is embedded as a
deterministic matcher returning the captured pieces and the remaining
buffer (the source trims the match off the front of the live string). -/

/-- `laxcomment = ^[^\S\n]*#[^\n]*(\n|$)`: optional horizontal space, a
`#`, the rest of the line, and the newline (or end of input). Returns the
buffer after the match. -/
def laxcommentM (d : List Char) : Option (List Char) :=
  match d.dropWhile isHS with
  | c :: t =>
    if c = '#' then
      match t.dropWhile (· != '\n') with
      | [] => some []
      | _ :: r => some r
    else none
  | [] => none

/-- `laxempty = ^[^\S\n]*(\n|$)`: a blank/whitespace-only line. -/
def laxemptyM (d : List Char) : Option (List Char) :=
  match d.dropWhile isHS with
  | [] => some []
  | c :: t => if c = '\n' then some t else none

/-- `laxID = ^(?:[^\S\n]*export\b)?[^\S\n]*([^\s=#]+)`: optional `export`
keyword (with a word boundary), then the variable name. Mirrors the
backtracking of the regex: the `export` branch is preferred, and if the
mandatory name fails after it, matching falls back to reading the name
from the start. Returns `(captured name, rest of buffer)`. -/
def laxIDM (d : List Char) : Option (List Char × List Char) :=
  let t := d.dropWhile isHS
  let fb : Option (List Char × List Char) :=
    if (t.takeWhile isNameChar).isEmpty then none
    else some (t.takeWhile isNameChar, t.dropWhile isNameChar)
  if t.take 6 = "export".data
      && (match t.drop 6 with
          | [] => true
          | c :: _ => !isWordChar c) then
    let u := (t.drop 6).dropWhile isHS
    if (u.takeWhile isNameChar).isEmpty then fb
    else some (u.takeWhile isNameChar, u.dropWhile isNameChar)
  else fb

/-- `laxequals = ^[^\S\n]*=[^\S\n]*`. -/
def laxequalsM (d : List Char) : Option (List Char) :=
  match d.dropWhile isHS with
  | c :: t => if c = '=' then some (t.dropWhile isHS) else none
  | [] => none

/-- `laxqstart = ^(['"])`. -/
def laxqstartM (d : List Char) : Option (Char × List Char) :=
  match d with
  | c :: t =>
    if c = '\'' then some ('\'', t)
    else if c = '"' then some ('"', t)
    else none
  | [] => none

/-- `laxsingleq`/`laxdoubleq` = `^((?:[^\\q]|\\(?s:.))*)q` for quote
character `q`: scan to the first unescaped closing quote, keeping escape
pairs intact. `none` means the quote is unterminated. -/
def laxquotedM (q : Char) : List Char → Option (List Char × List Char)
  | [] => none
  | c :: t =>
    if c = q then some ([], t)
    else if c = '\\' then
      match t with
      | [] => none
      | e :: t2 => (laxquotedM q t2).map (fun p => ('\\' :: e :: p.1, p.2))
    else (laxquotedM q t).map (fun p => (c :: p.1, p.2))

/-- `laxdiscard = ^([^\n]*)(?:\n|$)`: capture the current line and consume
it together with its newline. (The `none` case is kept to mirror the Go
code's `Couldn't read to end` branch; it never fires.) -/
def laxdiscardM (d : List Char) : Option (List Char × List Char) :=
  let content := d.takeWhile (· != '\n')
  match d.dropWhile (· != '\n') with
  | [] => some (content, [])
  | c :: t => if c = '\n' then some (content, t) else none

/-- Escape table for single-quoted values (Go `laxsqsubs`). -/
def laxsqsubs (c : Char) : Option Char :=
  if c = '\'' then some '\''
  else if c = '\\' then some '\\'
  else none

/-- Escape table for double-quoted values (Go `laxdqsubs`). -/
def laxdqsubs (c : Char) : Option Char :=
  if c = '\'' then some '\''
  else if c = '\\' then some '\\'
  else if c = '"' then some '"'
  else if c = 'a' then some '\x07'
  else if c = 'b' then some '\x08'
  else if c = 'f' then some '\x0c'
  else if c = 'n' then some '\n'
  else if c = 'r' then some '\x0d'
  else if c = 't' then some '\t'
  else if c = 'v' then some '\x0b'
  else none

/-- `laxescaped.ReplaceAllStringFunc` with `laxsubsq`/`laxsubdq`: decode
`\c` pairs through the table, keeping unknown pairs (and a trailing lone
backslash) verbatim. -/
def laxunescape (tbl : Char → Option Char) : List Char → List Char
  | '\\' :: c :: rest =>
    (match tbl c with
     | some r => [r]
     | none => ['\\', c]) ++ laxunescape tbl rest
  | c :: rest => c :: laxunescape tbl rest
  | [] => []

/-- One step of `laxtrailer = ^((?s:.)+?)\s+#` on an (already trimmed)
unquoted value: the suffix at the current split point matches when it
starts with whitespace whose first following non-whitespace character is
`#`. -/
def trailerCond (suf : List Char) : Bool :=
  match suf with
  | c :: _ =>
    isReWS c &&
      (match suf.dropWhile isReWS with
       | '#' :: _ => true
       | _ => false)
  | [] => false

/-- Scan for the shortest non-empty prefix followed by `\s+#`
(the non-greedy `(?s:.)+?` of `laxtrailer`). -/
def laxtrailerGo (accRev : List Char) : List Char → Option (List Char)
  | [] => none
  | c :: rest =>
    if trailerCond (c :: rest) then some accRev.reverse
    else laxtrailerGo (c :: accRev) rest

/-- `laxtrailer.FindStringSubmatch`: group 1 when the value contains a
whitespace-preceded `#` trailer. -/
def laxtrailerM (l : List Char) : Option (List Char) :=
  match l with
  | [] => none
  | c :: rest => laxtrailerGo [c] rest

/-! ### The lax parser loop -/

/-- Parse errors of the engine. `readToEnd` mirrors the Go
`Couldn't read to end` branch (provably unreachable), `ioError` stands for
a failed `os.Open`/`ioutil.ReadFile`, `jsonError` for a failed
`json.Unmarshal`, `unknownKind` for the `Unknown varsource kind` error. -/
inductive PError where
  | ioError | unclosedSingle | unclosedDouble | readToEnd | jsonError | unknownKind
deriving DecidableEq, Repr

/-- Outcome of one iteration of the `parseLax` scanning loop: the buffer
is exhausted, a line is discarded, an assignment is produced, or the parse
fails. -/
inductive LaxStep where
  | done : LaxStep
  | skip (rest : List Char) : LaxStep
  | emit (v : envvar) (rest : List Char) : LaxStep
  | fail (e : PError) : LaxStep
deriving DecidableEq, Repr

/-- One iteration of the `parseLax` loop body, translated branch by branch
from the Go source: comment line → discard; blank line → discard; no name
→ `Invalid line` warning, discard through the newline; name followed by a
comment or end of line → assignment with empty value; `=` then a quoted
value → scan to the unescaped closing quote (failing the parse if absent),
decode escapes, discard the rest of the line; `=` then a bare value → read
to end of line, trim, strip a whitespace-preceded `#` trailer; name not
followed by `=`/comment/EOL → `Invalid line` warning, discard. -/
def laxStep (d : List Char) : LaxStep :=
  match d with
  | [] => .done
  | _ :: _ =>
    match laxcommentM d with
    | some rest => .skip rest
    | none =>
      match laxemptyM d with
      | some rest => .skip rest
      | none =>
        match laxIDM d with
        | none => .skip (((laxdiscardM d).map Prod.snd).getD d)
        | some (nm, d1) =>
          match laxcommentM d1 with
          | some d2 => .emit ⟨String.mk nm, "", true, false⟩ d2
          | none =>
            match laxemptyM d1 with
            | some d2 => .emit ⟨String.mk nm, "", true, false⟩ d2
            | none =>
              match laxequalsM d1 with
              | none => .skip (((laxdiscardM d1).map Prod.snd).getD d1)
              | some d2 =>
                match laxqstartM d2 with
                | some (q, d3) =>
                  match laxquotedM q d3 with
                  | none => .fail (if q = '\'' then .unclosedSingle else .unclosedDouble)
                  | some (content, d4) =>
                    let tbl := if q = '\'' then laxsqsubs else laxdqsubs
                    let val := String.mk (laxunescape tbl content)
                    let d5 :=
                      match laxcommentM d4 with
                      | some r => r
                      | none => ((laxdiscardM d4).map Prod.snd).getD d4
                    .emit ⟨String.mk nm, val, q != '\'', false⟩ d5
                | none =>
                  match laxdiscardM d2 with
                  | none => .fail .readToEnd
                  | some (lineVal, d3) =>
                    let v0 := trimSpace lineVal
                    let val := (laxtrailerM v0).getD v0
                    .emit ⟨String.mk nm, String.mk val, true, false⟩ d3

/-- The scanning loop of `parseLax` (`for len(data) > 0`), with explicit
fuel; `none` models a run that would not have terminated within `fuel`
iterations (each iteration strictly shortens the buffer, so fuel equal to
the buffer length always suffices — proved below). -/
def parseLaxAux : Nat → List Char → Option (Except PError (List envvar))
  | _, [] => some (.ok [])
  | 0, _ :: _ => none
  | fuel + 1, c :: t =>
    match laxStep (c :: t) with
    | .done => some (.ok [])
    | .skip rest => parseLaxAux fuel rest
    | .emit v rest => (parseLaxAux fuel rest).map (Except.map (v :: ·))
    | .fail e => some (.error e)

/-- `parseLax` on a buffer; the fuel `d.length` always suffices (each
iteration strictly shortens the buffer — proved below), so the default is
never used. -/
def parseLaxM (d : List Char) : Except PError (List envvar) :=
  (parseLaxAux d.length d).getD (.ok [])

/-- `parseLax` on the contents of the origin file. -/
def parseLaxContent (s : String) : Except PError (List envvar) :=
  parseLaxM s.data

/-! ### Interpolation engine -/

/-- The global reference-pattern switch: `tointerp = \$\{([^}]+)\}`
(strict) or `anyinterp = \$(?:\{([^}]+)\}|([A-Za-z0-9_.]+))`
(permissive, the default). -/
inductive varpattern where
  | tointerp | anyinterp
deriving DecidableEq, Repr

/-- A character of a bare (unbraced) reference: `[A-Za-z0-9_.]`. -/
def isBareRefChar (c : Char) : Bool :=
  c.isAlphanum || c = '_' || c = '.'

/-- Try to match one reference right after a `$`: returns the referenced
name and the rest of the buffer. The braced form is group 1; under
`anyinterp` a bare run is group 2 (the Go callback falls back to
`parts[2]` when group 1 is empty). -/
def interpMatch (vm : varpattern) (rest : List Char) : Option (String × List Char) :=
  let braced : Option (String × List Char) :=
    match rest with
    | '{' :: r2 =>
      match r2.takeWhile (· != '}'), r2.dropWhile (· != '}') with
      | c :: cs, '}' :: after => some (String.mk (c :: cs), after)
      | _, _ => none
    | _ => none
  match braced with
  | some x => some x
  | none =>
    match vm with
    | .tointerp => none
    | .anyinterp =>
      match rest.takeWhile isBareRefChar with
      | [] => none
      | run => some (String.mk run, rest.drop run.length)

/-- `varmatch.ReplaceAllStringFunc` over a value: every reference is
replaced by its value in the lookup table, or by the empty string when
unknown; replacements are not rescanned. Fuel is the buffer length
(each step consumes at least one character). -/
def interpAux (vm : varpattern) (vals : String → Option String) :
    Nat → List Char → List Char
  | _, [] => []
  | 0, l => l
  | fuel + 1, '$' :: rest =>
    (match interpMatch vm rest with
     | some (nm, after) => ((vals nm).getD "").data ++ interpAux vm vals fuel after
     | none => '$' :: interpAux vm vals fuel rest)
  | fuel + 1, c :: rest => c :: interpAux vm vals fuel rest

/-- Interpolate one value string. -/
def interpolate (vm : varpattern) (vals : String → Option String) (s : String) : String :=
  String.mk (interpAux vm vals s.data.length s.data)

/-- Functional update of a Go `map[string]string`. -/
def updateVals (m : String → Option String) (n v : String) : String → Option String :=
  fun k => if k = n then some v else m k

/-- Fill a lookup table from a list of assignments (later entries
shadow earlier ones, like repeated Go map assignment). -/
def buildVals (init : String → Option String) (l : List envvar) : String → Option String :=
  l.foldl (fun m v => updateVals m v.name v.val) init

/-- The per-assignment loop of `substitutevars`: substitute each value
(when eligible) and add the result to the table before the next
assignment of the same batch is processed (`vals[r.name] = subbed`). -/
def substGo (vm : varpattern) (vals : String → Option String) :
    List envvar → List envvar
  | [] => []
  | r :: rs =>
    let subbed := if r.allowsubs then interpolate vm vals r.val else r.val
    ⟨r.name, subbed, r.allowsubs, r.tombstone⟩ ::
      substGo vm (updateVals vals r.name subbed) rs

/-- Go `(src varsource) substitutevars(env, raw []envvar, varmatch)`.
`osEnviron` stands for `os.Environ()` (read inside the Go function);
`env` is the accumulated assignments of earlier sources; `raw` is this
source's parsed batch. When the resolved policy differs from the kind
default, every assignment's eligibility flag is overwritten first. -/
def substitutevars (src : varsource) (osEnviron : List String)
    (env raw : List envvar) (vm : varpattern) : List envvar :=
  let level := src.getsublevel
  let raw' :=
    if level ≠ src.kind.defaultsub then
      raw.map (fun r => { r with allowsubs := decide (level ≠ .neversub) })
    else raw
  let vals := buildVals (buildVals (fun _ => none) (osEnviron.map parsevar)) env
  substGo vm vals raw'

/-! ### JSON map parsing -/

/-- The shape of a value produced by `encoding/json.Unmarshal` into
`interface{}`: `nil`, `bool`, `float64` (every JSON number — `Unmarshal`
never produces `int`), `string`, `[]interface{}`, or a nested map. The
payloads of numbers/arrays/objects are irrelevant to the engine (its type
switch has no case for them), so only the number's literal text is kept
for stating claims. -/
inductive Jval where
  | jnull
  | jbool (b : Bool)
  | jnum (lit : String)
  | jstr (s : String)
  | jarr
  | jobj
deriving DecidableEq, Repr

/-- The per-key conversion of `parseJsonMap`: starting from the zero value
`envvar{name: k}`, `nil` marks a tombstone and a string becomes the value.
The Go `case int` branch is dead code (`Unmarshal` yields `float64` for
numbers), so numbers — like booleans, arrays and objects — fall through
with the empty-string value. -/
def jsonconvert (kv : String × Jval) : envvar :=
  match kv.2 with
  | .jnull => ⟨kv.1, "", false, true⟩
  | .jstr s => ⟨kv.1, s, false, false⟩
  | _ => ⟨kv.1, "", false, false⟩

/-- `parseJsonMap`, given the outcome of `json.Unmarshal` on the source's
text (`none` = malformed JSON, `some m` = the decoded object as a
key/value list in iteration order). -/
def parseJsonMap (j : Option (List (String × Jval))) : Except PError (List envvar) :=
  match j with
  | none => .error .jsonError
  | some m => .ok (m.map jsonconvert)

/-! ### Line-file parser (`parseFile`) -/

/-- Drop a single trailing `\r` (the `dropCR` of `bufio.ScanLines`). -/
def stripCR (line : List Char) : List Char :=
  match line.reverse with
  | '\r' :: t => t.reverse
  | _ => line

/-- `bufio.ScanLines`: split on `\n`, dropping each line's trailing `\r`;
a final fragment without a newline is a line, a trailing newline adds no
empty line. -/
def splitLinesAux (acc : List Char) : List Char → List (List Char)
  | [] => [stripCR acc.reverse]
  | '\n' :: rest =>
    stripCR acc.reverse ::
      (match rest with
       | [] => []
       | _ :: _ => splitLinesAux [] rest)
  | c :: rest => splitLinesAux (c :: acc) rest

/-- All lines of a buffer (empty input has no lines). -/
def splitLines (l : List Char) : List (List Char) :=
  match l with
  | [] => []
  | _ :: _ => splitLinesAux [] l

/-- `comment = ^\s*#`. -/
def commentRe (l : List Char) : Bool :=
  match l.dropWhile isReWS with
  | '#' :: _ => true
  | _ => false

/-- `nonstrict = ^[^\s=]+=`. -/
def nonstrictRe (l : List Char) : Bool :=
  match l.takeWhile (fun c => !isReWS c && c != '='), l.dropWhile (fun c => !isReWS c && c != '=') with
  | _ :: _, '=' :: _ => true
  | _, _ => false

/-- `assignment = ^[A-Za-z_][A-Za-z_0-9]*=`. -/
def assignmentRe (l : List Char) : Bool :=
  match l with
  | c :: rest =>
    (c.isAlpha || c = '_') &&
      (match rest.dropWhile isWordChar with
       | '=' :: _ => true
       | _ => false)
  | [] => false

/-- `parseFile` on the file's contents: skip comment lines, keep lines
matching the assignment pattern (`nonstrict`, or `assignment` under the
`-a`/`--strict-vars` flag), parse each with `parsevar`. -/
def parseFileContent (alphanumeric : Bool) (content : String) : List envvar :=
  (splitLines content.data).filterMap fun lc =>
    if commentRe lc then none
    else if (if alphanumeric then assignmentRe lc else nonstrictRe lc) then
      some (parsevar (String.mk lc))
    else none

/-! ### The outside world, and per-source parsing -/

/-- Everything the engine reads from outside the process: the filesystem,
the decoded form of JSON arguments (`encoding/json`), the process
environment, the `alphanumeric` CLI flag, and the outcome of the
shell/pid parsers (whose tokenizers live in external packages /
`/proc`). -/
structure World where
  files : String → Option String
  jsonParse : String → Option (List (String × Jval))
  osEnviron : List String
  alphanumeric : Bool
  ext : varsource → Except PError (List envvar)

/-- Go `(src varsource) parse()`: dispatch on the source kind. -/
def sourceParse (w : World) (src : varsource) : Except PError (List envvar) :=
  match src.kind with
  | .raw => .ok [parsevar src.data]
  | .file =>
    match w.files src.data with
    | none => .error .ioError
    | some content => .ok (parseFileContent w.alphanumeric content)
  | .laxfile =>
    match w.files src.data with
    | none => .error .ioError
    | some content => parseLaxContent content
  | .jsonmap => parseJsonMap (w.jsonParse src.data)
  | .osenv => .ok (w.osEnviron.map parsevar)
  | .shell => w.ext src
  | .pid => w.ext src
  | .notype => .error .unknownKind

/-! ### Priority sorting (`bypriority` / `prioritysort`) -/

/-- The `Less` of `prioritysort` as a total order on `(source, position)`
pairs: ascending rank, ties by original position. Positions are distinct,
so the sorted order is unique regardless of sorting algorithm (Go uses
`sort.Sort` with this comparison). -/
def priorityLE (a b : varsource × Nat) : Bool :=
  a.1.kind.rank < b.1.kind.rank ||
    (a.1.kind.rank = b.1.kind.rank && a.2 ≤ b.2)

/-- Insertion step of the sort. -/
def insertByPriority (x : varsource × Nat) : List (varsource × Nat) → List (varsource × Nat)
  | [] => [x]
  | y :: ys => if priorityLE x y then x :: y :: ys else y :: insertByPriority x ys

/-- Insertion sort by `priorityLE`. -/
def sortByPriority : List (varsource × Nat) → List (varsource × Nat)
  | [] => []
  | x :: xs => insertByPriority x (sortByPriority xs)

/-- Number the sources with their original positions (`bypriority`). -/
def withPos : List varsource → Nat → List (varsource × Nat)
  | [], _ => []
  | s :: ss, i => (s, i) :: withPos ss (i + 1)

/-- `bypriority(sources).sort()`. -/
def bypriority (sources : List varsource) : List varsource :=
  (sortByPriority (withPos sources 0)).map Prod.fst

/-! ### Merge/dedup (`uniqVarsByName`) and the main loop -/

/-- Functional update of the Go `map[string]int` index. -/
def updateIdx (m : String → Option Nat) (n : String) (i : Nat) : String → Option Nat :=
  fun k => if k = n then some i else m k

/-- The loop of `uniqVarsByName`: first assignment for a name is kept at
its position; a later tombstone for a seen name overwrites the kept entry
in place; a later non-tombstone duplicate is discarded. -/
def uniqGo : List envvar → List String → List envvar → (String → Option Nat) →
    List String × List envvar
  | [], nms, vars, _ => (nms, vars)
  | v :: rest, nms, vars, idx =>
    match idx v.name with
    | none => uniqGo rest (nms ++ [v.name]) (vars ++ [v]) (updateIdx idx v.name vars.length)
    | some i =>
      if v.tombstone then uniqGo rest nms (vars.set i v) idx
      else uniqGo rest nms vars idx

/-- Go `uniqVarsByName`. -/
def uniqVarsByName (allvars : List envvar) : List String × List envvar :=
  uniqGo allvars [] [] (fun _ => none)

/-- The tombstone-stripping pass after `uniqVarsByName` in `main`
(`if !v.tombstone { setvars = append(setvars, v) }`). -/
def stripTombstones (l : List envvar) : List envvar :=
  l.filter (fun v => !v.tombstone)

/-- Outcome of the source-processing loop of `main`: a fatal abort
(`log.Fatalf` on an explicit source's failure), or the accumulated
assignments plus the resolved command line. -/
inductive loopresult where
  | fatal (e : PError)
  | finished (vars : List envvar) (cmd : List String)
deriving DecidableEq, Repr

/-- The source-processing loop of `main`: parse each source in order; on
failure an explicit source aborts, a non-optional source turns itself and
every unprocessed source into the command line (halting the loop, keeping
the merged assignments), and an optional source is skipped; on success the
batch is interpolated against the accumulated assignments and appended. -/
def mainLoop (p : varsource → Except PError (List envvar)) (osEnviron : List String)
    (vm : varpattern) : List varsource → List envvar → List String → loopresult
  | [], vars, cmd => .finished vars cmd
  | s :: rest, vars, cmd =>
    match p s with
    | .ok parsed =>
      mainLoop p osEnviron vm rest (vars ++ substitutevars s osEnviron vars parsed vm) cmd
    | .error e =>
      if s.explicit then .fatal e
      else if !s.optional then .finished vars ((s :: rest).map (·.data) ++ cmd)
      else mainLoop p osEnviron vm rest (vars ++ substitutevars s osEnviron vars [] vm) cmd

/-- Accumulated assignments after successfully processing a list of
sources (used to state what the loop has merged before a failure). -/
def accumVars (p : varsource → Except PError (List envvar)) (osEnviron : List String)
    (vm : varpattern) : List varsource → List envvar → List envvar
  | [], vars => vars
  | s :: rest, vars =>
    accumVars p osEnviron vm rest
      (vars ++ substitutevars s osEnviron vars (((p s).toOption).getD []) vm)

/-- The whole post-classification pipeline of `main`: priority-sort the
sources, run the processing loop, merge/dedup, strip tombstones. -/
def runPipeline (w : World) (vm : varpattern) (sources : List varsource)
    (cmd0 : List String) : loopresult :=
  match mainLoop (sourceParse w) w.osEnviron vm (bypriority sources) [] cmd0 with
  | .fatal e => .fatal e
  | .finished vars cmd => .finished (stripTombstones (uniqVarsByName vars).2) cmd

/-- The final mapping handed to the consumer, `none` on a fatal abort. -/
def finalVars : loopresult → Option (List envvar)
  | .fatal _ => none
  | .finished vars _ => some vars

deriving instance DecidableEq for Except

/-! ### Concrete scenarios from the spec's testable properties -/

/-- A plain lax-file source with no overrides. -/
def laxSrc : varsource := ⟨"f", .laxfile, false, false, none⟩

/-- A lax-file source with a `forced` substitution override
(`--force-sub` sets the descriptor's `sublevel`). -/
def laxSrcForced : varsource := ⟨"f", .laxfile, false, false, some .forcesub⟩

/-- World for the priority scenario: the file `f` contains `A=2`; the
process environment is empty. -/
def prioWorld : World := {
  files := fun s => if s = "f" then some "A=2" else none
  jsonParse := fun _ => none
  osEnviron := []
  alphanumeric := false
  ext := fun _ => .error .ioError }

/-- Sources of the priority scenario: a raw assignment `A=1` and the file
`f` containing `A=2`. -/
def prioSources : List varsource :=
  [⟨"A=1", .raw, false, false, none⟩, ⟨"f", .laxfile, false, false, none⟩]

/-- World for the tombstone scenario: the file `f` defines `A=x`, and the
JSON argument `\x7b"A": null\x7d` decodes to a single `null` entry. -/
def tombWorld : World := {
  files := fun s => if s = "f" then some "A=x" else none
  jsonParse := fun s => if s = "\x7b\"A\": null\x7d" then some [("A", .jnull)] else none
  osEnviron := []
  alphanumeric := false
  ext := fun _ => .error .ioError }

/-- Sources of the tombstone scenario: the JSON map and the file. -/
def tombSources : List varsource :=
  [⟨"\x7b\"A\": null\x7d", .jsonmap, false, false, none⟩,
   ⟨"f", .laxfile, false, false, none⟩]

/-- World for the interpolation scenario, double-quoted variant. -/
def interpWorldDQ : World := {
  files := fun s => if s = "f" then some "A=foo\nB=\"$\x7bA\x7dbar\"" else none
  jsonParse := fun _ => none
  osEnviron := []
  alphanumeric := false
  ext := fun _ => .error .ioError }

/-- World for the interpolation scenario, single-quoted variant. -/
def interpWorldSQ : World := {
  files := fun s => if s = "f" then some "A=foo\nB='$\x7bA\x7dbar'" else none
  jsonParse := fun _ => none
  osEnviron := []
  alphanumeric := false
  ext := fun _ => .error .ioError }

/-- World in which no file exists (for exercising I/O failures). -/
def ioWorld : World := {
  files := fun _ => none
  jsonParse := fun _ => none
  osEnviron := []
  alphanumeric := false
  ext := fun _ => .error .ioError }

/-! ## Theorems -/

/-! ### Shrinking lemmas for the lax matchers -/

/-- The head of a `dropWhile` residue falsifies the predicate. -/
theorem dropWhile_head_false {p : Char → Bool} {l : List Char} {c : Char} {t : List Char}
    (h : l.dropWhile p = c :: t) : p c = false := by
  have h2 := List.head?_dropWhile_not p l
  rw [h] at h2
  simpa using h2

/-- Dropping a non-empty matched run strictly shortens the list. -/
theorem dropWhile_lt_of_takeWhile_ne_nil {p : Char → Bool} {u : List Char}
    (h : u.takeWhile p ≠ []) : (u.dropWhile p).length < u.length := by
  have hlen := congrArg List.length (List.takeWhile_append_dropWhile p u)
  rw [List.length_append] at hlen
  have hpos : 0 < (u.takeWhile p).length := List.length_pos.mpr h
  omega

/-- `laxdiscard` matches every buffer (`[^\n]*` then a newline or the end
of input always succeeds) — the Go `Couldn't read to end` branch is dead. -/
theorem laxdiscardM_isSome (d : List Char) :
    ∃ c0 r, laxdiscardM d = some (c0, r) := by
  cases h : d.dropWhile (· != '\n') with
  | nil => exact ⟨d.takeWhile (· != '\n'), [], by simp [laxdiscardM, h]⟩
  | cons c t =>
    have hc : c = '\n' := by simpa using dropWhile_head_false h
    subst hc
    exact ⟨d.takeWhile (· != '\n'), t, by simp [laxdiscardM, h]⟩

/-- The residue of a `laxdiscard` match is no longer than the buffer. -/
theorem laxdiscardM_le {d c0 r : List Char}
    (h : laxdiscardM d = some (c0, r)) : r.length ≤ d.length := by
  simp only [laxdiscardM] at h
  cases hdw : d.dropWhile (· != '\n') with
  | nil =>
    rw [hdw] at h
    cases h
    simp
  | cons c t =>
    rw [hdw] at h
    have hc : c = '\n' := by simpa using dropWhile_head_false hdw
    subst hc
    simp only [if_pos rfl] at h
    cases h
    have := List.Sublist.length_le (List.dropWhile_sublist (l := d) (· != '\n'))
    rw [hdw] at this
    simp only [List.length_cons] at this
    omega

/-- On a non-empty buffer, `laxdiscard` consumes at least the newline (or
the whole buffer). -/
theorem laxdiscardM_lt {d c0 r : List Char}
    (hd : d ≠ []) (h : laxdiscardM d = some (c0, r)) : r.length < d.length := by
  simp only [laxdiscardM] at h
  cases hdw : d.dropWhile (· != '\n') with
  | nil =>
    rw [hdw] at h
    cases h
    simpa using List.length_pos.mpr hd
  | cons c t =>
    rw [hdw] at h
    have hc : c = '\n' := by simpa using dropWhile_head_false hdw
    subst hc
    simp only [if_pos rfl] at h
    cases h
    have := List.Sublist.length_le (List.dropWhile_sublist (l := d) (· != '\n'))
    rw [hdw] at this
    simp only [List.length_cons] at this
    omega

/-- A `laxcomment` match consumes at least the `#`. -/
theorem laxcommentM_lt {d r : List Char} (h : laxcommentM d = some r) :
    r.length < d.length := by
  simp only [laxcommentM] at h
  cases hdw : d.dropWhile isHS with
  | nil => rw [hdw] at h; dsimp only at h; cases h
  | cons c t =>
    rw [hdw] at h
    dsimp only at h
    have hsub := List.Sublist.length_le (List.dropWhile_sublist (l := d) isHS)
    rw [hdw] at hsub
    simp only [List.length_cons] at hsub
    by_cases hc : c = '#'
    · rw [if_pos hc] at h
      cases hdw2 : t.dropWhile (· != '\n') with
      | nil =>
        rw [hdw2] at h
        cases h
        simp only [List.length_nil]
        omega
      | cons x u =>
        rw [hdw2] at h
        cases h
        have hsub2 := List.Sublist.length_le (List.dropWhile_sublist (l := t) (· != '\n'))
        rw [hdw2] at hsub2
        simp only [List.length_cons] at hsub2
        omega
    · rw [if_neg hc] at h
      cases h

/-- A `laxempty` match never lengthens the buffer. -/
theorem laxemptyM_le {d r : List Char} (h : laxemptyM d = some r) :
    r.length ≤ d.length := by
  simp only [laxemptyM] at h
  cases hdw : d.dropWhile isHS with
  | nil => rw [hdw] at h; dsimp only at h; cases h; simp
  | cons c t =>
    rw [hdw] at h
    dsimp only at h
    have hsub := List.Sublist.length_le (List.dropWhile_sublist (l := d) isHS)
    rw [hdw] at hsub
    simp only [List.length_cons] at hsub
    by_cases hc : c = '\n'
    · rw [if_pos hc] at h
      cases h
      omega
    · rw [if_neg hc] at h
      cases h

/-- On a non-empty buffer, a `laxempty` match consumes at least one
character. -/
theorem laxemptyM_lt {d r : List Char} (hd : d ≠ []) (h : laxemptyM d = some r) :
    r.length < d.length := by
  simp only [laxemptyM] at h
  cases hdw : d.dropWhile isHS with
  | nil =>
    rw [hdw] at h
    cases h
    simpa using List.length_pos.mpr hd
  | cons c t =>
    rw [hdw] at h
    dsimp only at h
    have hsub := List.Sublist.length_le (List.dropWhile_sublist (l := d) isHS)
    rw [hdw] at hsub
    simp only [List.length_cons] at hsub
    by_cases hc : c = '\n'
    · rw [if_pos hc] at h
      cases h
      omega
    · rw [if_neg hc] at h
      cases h

/-- A `laxequals` match never lengthens the buffer. -/
theorem laxequalsM_le {d r : List Char} (h : laxequalsM d = some r) :
    r.length ≤ d.length := by
  simp only [laxequalsM] at h
  cases hdw : d.dropWhile isHS with
  | nil => rw [hdw] at h; dsimp only at h; cases h
  | cons c t =>
    rw [hdw] at h
    dsimp only at h
    have hsub := List.Sublist.length_le (List.dropWhile_sublist (l := d) isHS)
    rw [hdw] at hsub
    simp only [List.length_cons] at hsub
    by_cases hc : c = '='
    · rw [if_pos hc] at h
      cases h
      have := List.Sublist.length_le (List.dropWhile_sublist (l := t) isHS)
      omega
    · rw [if_neg hc] at h
      cases h

/-- A `laxqstart` match consumes the quote character. -/
theorem laxqstartM_lt {d : List Char} {q : Char} {r : List Char}
    (h : laxqstartM d = some (q, r)) : r.length < d.length := by
  cases d with
  | nil => simp [laxqstartM] at h
  | cons c t =>
    simp only [laxqstartM] at h
    by_cases h1 : c = '\''
    · rw [if_pos h1] at h
      cases h
      simp
    · rw [if_neg h1] at h
      by_cases h2 : c = '"'
      · rw [if_pos h2] at h
        cases h
        simp
      · rw [if_neg h2] at h
        cases h

/-- Bounded-length auxiliary for the quoted-value scanner. -/
theorem laxquotedM_le_aux (q : Char) : ∀ (n : Nat) (d : List Char), d.length ≤ n →
    ∀ c0 r, laxquotedM q d = some (c0, r) → r.length ≤ d.length := by
  intro n
  induction n with
  | zero =>
    intro d hlen c0 r h
    have hnil : d = [] := List.eq_nil_of_length_eq_zero (Nat.le_zero.mp hlen)
    subst hnil
    simp [laxquotedM] at h
  | succ n ih =>
    intro d hlen c0 r h
    cases d with
    | nil => simp [laxquotedM] at h
    | cons c t =>
      rw [laxquotedM.eq_def] at h
      dsimp only at h
      simp only [List.length_cons] at hlen
      by_cases hcq : c = q
      · rw [if_pos hcq] at h
        cases h
        simp
      · rw [if_neg hcq] at h
        by_cases hcb : c = '\\'
        · rw [if_pos hcb] at h
          cases t with
          | nil => dsimp only at h; cases h
          | cons e t2 =>
            dsimp only at h
            cases hx : laxquotedM q t2 with
            | none => rw [hx] at h; cases h
            | some p =>
              obtain ⟨p1, p2⟩ := p
              rw [hx] at h
              simp only [Option.map_some'] at h
              cases h
              have := ih t2 (by simp at hlen; omega) _ _ hx
              simp only [List.length_cons]
              omega
        · rw [if_neg hcb] at h
          cases hx : laxquotedM q t with
          | none => rw [hx] at h; cases h
          | some p =>
            obtain ⟨p1, p2⟩ := p
            rw [hx] at h
            simp only [Option.map_some'] at h
            cases h
            have := ih t (by omega) _ _ hx
            simp only [List.length_cons]
            omega

/-- The residue after a closed quoted value is no longer than the buffer. -/
theorem laxquotedM_le {q : Char} {d c0 r : List Char}
    (h : laxquotedM q d = some (c0, r)) : r.length ≤ d.length :=
  laxquotedM_le_aux q d.length d (Nat.le_refl _) c0 r h

/-- A `laxID` match captures a non-empty name, so its residue is strictly
shorter than the buffer. -/
theorem laxIDM_lt {d : List Char} {nm r : List Char}
    (h : laxIDM d = some (nm, r)) : r.length < d.length := by
  simp only [laxIDM] at h
  have htle := List.Sublist.length_le (List.dropWhile_sublist (l := d) isHS)
  set t := d.dropWhile isHS with ht
  have hfb : ∀ (hh : (if (t.takeWhile isNameChar).isEmpty then
        (none : Option (List Char × List Char))
      else some (t.takeWhile isNameChar, t.dropWhile isNameChar)) = some (nm, r)),
      r.length < d.length := by
    intro hh
    by_cases hemp : (t.takeWhile isNameChar).isEmpty
    · rw [if_pos hemp] at hh; cases hh
    · rw [if_neg hemp] at hh
      cases hh
      have : (t.dropWhile isNameChar).length < t.length :=
        dropWhile_lt_of_takeWhile_ne_nil (by
          intro hcon
          rw [hcon] at hemp
          exact hemp rfl)
      omega
  by_cases hexp : (t.take 6 = "export".data
      && (match t.drop 6 with
          | [] => true
          | c :: _ => !isWordChar c)) = true
  · rw [if_pos hexp] at h
    by_cases hemp : (((t.drop 6).dropWhile isHS).takeWhile isNameChar).isEmpty
    · rw [if_pos hemp] at h
      exact hfb h
    · rw [if_neg hemp] at h
      cases h
      have h1 : (((t.drop 6).dropWhile isHS).dropWhile isNameChar).length <
          ((t.drop 6).dropWhile isHS).length :=
        dropWhile_lt_of_takeWhile_ne_nil (by
          intro hcon
          rw [hcon] at hemp
          exact hemp rfl)
      have h2 := List.Sublist.length_le (List.dropWhile_sublist (l := t.drop 6) isHS)
      have h3 : (t.drop 6).length ≤ t.length := by
        rw [List.length_drop]
        omega
      omega
  · rw [if_neg hexp] at h
    exact hfb h

/-- Case analysis on one iteration of the `parseLax` loop: every `skip` or
`emit` outcome strictly shortens the buffer, and the only reachable
failures are the two unclosed-quote errors. -/
theorem laxStep_cases (d : List Char) (hd : d ≠ []) :
    (∀ r, laxStep d = .skip r → r.length < d.length) ∧
    (∀ v r, laxStep d = .emit v r → r.length < d.length) ∧
    (∀ e, laxStep d = .fail e → e = .unclosedSingle ∨ e = .unclosedDouble) := by
  cases d with
  | nil => exact absurd rfl hd
  | cons c t =>
  have hdne : (c :: t) ≠ ([] : List Char) := by simp
  cases hc : laxcommentM (c :: t) with
  | some rest =>
    have hstep : laxStep (c :: t) = .skip rest := by
      rw [laxStep.eq_def]
      dsimp only
      simp only [hc]
    refine ⟨?_, ?_, ?_⟩
    · intro r h
      rw [hstep] at h
      cases h
      exact laxcommentM_lt hc
    · intro v r h; rw [hstep] at h; cases h
    · intro e h; rw [hstep] at h; cases h
  | none =>
  cases he : laxemptyM (c :: t) with
  | some rest =>
    have hstep : laxStep (c :: t) = .skip rest := by
      rw [laxStep.eq_def]
      dsimp only
      simp only [hc, he]
    refine ⟨?_, ?_, ?_⟩
    · intro r h
      rw [hstep] at h
      cases h
      exact laxemptyM_lt hdne he
    · intro v r h; rw [hstep] at h; cases h
    · intro e h; rw [hstep] at h; cases h
  | none =>
  cases hid : laxIDM (c :: t) with
  | none =>
    obtain ⟨c0, r0, hdm⟩ := laxdiscardM_isSome (c :: t)
    have hstep : laxStep (c :: t) = .skip r0 := by
      rw [laxStep.eq_def]
      dsimp only
      simp only [hc, he, hid, hdm, Option.map_some', Option.getD_some]
    refine ⟨?_, ?_, ?_⟩
    · intro r h
      rw [hstep] at h
      cases h
      exact laxdiscardM_lt hdne hdm
    · intro v r h; rw [hstep] at h; cases h
    · intro e h; rw [hstep] at h; cases h
  | some p =>
  obtain ⟨nm, d1⟩ := p
  have hd1 : d1.length < (c :: t).length := laxIDM_lt hid
  cases h1 : laxcommentM d1 with
  | some d2 =>
    have hstep : laxStep (c :: t) = .emit ⟨String.mk nm, "", true, false⟩ d2 := by
      rw [laxStep.eq_def]
      dsimp only
      simp only [hc, he, hid, h1]
    refine ⟨?_, ?_, ?_⟩
    · intro r h; rw [hstep] at h; cases h
    · intro v r h
      rw [hstep] at h
      cases h
      exact Nat.lt_trans (laxcommentM_lt h1) hd1
    · intro e h; rw [hstep] at h; cases h
  | none =>
  cases h2 : laxemptyM d1 with
  | some d2 =>
    have hstep : laxStep (c :: t) = .emit ⟨String.mk nm, "", true, false⟩ d2 := by
      rw [laxStep.eq_def]
      dsimp only
      simp only [hc, he, hid, h1, h2]
    refine ⟨?_, ?_, ?_⟩
    · intro r h; rw [hstep] at h; cases h
    · intro v r h
      rw [hstep] at h
      cases h
      exact Nat.lt_of_le_of_lt (laxemptyM_le h2) hd1
    · intro e h; rw [hstep] at h; cases h
  | none =>
  cases h3 : laxequalsM d1 with
  | none =>
    obtain ⟨c0, r0, hdm⟩ := laxdiscardM_isSome d1
    have hstep : laxStep (c :: t) = .skip r0 := by
      rw [laxStep.eq_def]
      dsimp only
      simp only [hc, he, hid, h1, h2, h3, hdm, Option.map_some', Option.getD_some]
    refine ⟨?_, ?_, ?_⟩
    · intro r h
      rw [hstep] at h
      cases h
      exact Nat.lt_of_le_of_lt (laxdiscardM_le hdm) hd1
    · intro v r h; rw [hstep] at h; cases h
    · intro e h; rw [hstep] at h; cases h
  | some d2 =>
  have hd2 : d2.length ≤ d1.length := laxequalsM_le h3
  cases h4 : laxqstartM d2 with
  | some qp =>
    obtain ⟨q, d3⟩ := qp
    have hd3 : d3.length < d2.length := laxqstartM_lt h4
    cases h5 : laxquotedM q d3 with
    | none =>
      have hstep : laxStep (c :: t) =
          .fail (if q = '\'' then .unclosedSingle else .unclosedDouble) := by
        rw [laxStep.eq_def]
        dsimp only
        simp only [hc, he, hid, h1, h2, h3, h4, h5]
      refine ⟨?_, ?_, ?_⟩
      · intro r h; rw [hstep] at h; cases h
      · intro v r h; rw [hstep] at h; cases h
      · intro e h
        rw [hstep] at h
        cases h
        by_cases hq : q = '\''
        · rw [if_pos hq]; exact Or.inl rfl
        · rw [if_neg hq]; exact Or.inr rfl
    | some cp =>
      obtain ⟨content, d4⟩ := cp
      have hd4 : d4.length ≤ d3.length := laxquotedM_le h5
      cases h6 : laxcommentM d4 with
      | some d5 =>
        have hstep : laxStep (c :: t) =
            .emit ⟨String.mk nm,
              String.mk (laxunescape (if q = '\'' then laxsqsubs else laxdqsubs) content),
              q != '\'', false⟩ d5 := by
          rw [laxStep.eq_def]
          dsimp only
          simp only [hc, he, hid, h1, h2, h3, h4, h5, h6]
        refine ⟨?_, ?_, ?_⟩
        · intro r h; rw [hstep] at h; cases h
        · intro v r h
          rw [hstep] at h
          cases h
          have := laxcommentM_lt h6
          omega
        · intro e h; rw [hstep] at h; cases h
      | none =>
        obtain ⟨c5, r5, hdm5⟩ := laxdiscardM_isSome d4
        have hstep : laxStep (c :: t) =
            .emit ⟨String.mk nm,
              String.mk (laxunescape (if q = '\'' then laxsqsubs else laxdqsubs) content),
              q != '\'', false⟩ r5 := by
          rw [laxStep.eq_def]
          dsimp only
          simp only [hc, he, hid, h1, h2, h3, h4, h5, h6, hdm5, Option.map_some', Option.getD_some]
        refine ⟨?_, ?_, ?_⟩
        · intro r h; rw [hstep] at h; cases h
        · intro v r h
          rw [hstep] at h
          cases h
          have := laxdiscardM_le hdm5
          omega
        · intro e h; rw [hstep] at h; cases h
  | none =>
  cases h5 : laxdiscardM d2 with
  | none =>
    obtain ⟨c0, r0, hdm⟩ := laxdiscardM_isSome d2
    rw [hdm] at h5
    cases h5
  | some pp =>
    obtain ⟨lineVal, d3⟩ := pp
    have hstep : laxStep (c :: t) =
        .emit ⟨String.mk nm,
          String.mk ((laxtrailerM (trimSpace lineVal)).getD (trimSpace lineVal)),
          true, false⟩ d3 := by
      rw [laxStep.eq_def]
      dsimp only
      simp only [hc, he, hid, h1, h2, h3, h4, h5]
    refine ⟨?_, ?_, ?_⟩
    · intro r h; rw [hstep] at h; cases h
    · intro v r h
      rw [hstep] at h
      cases h
      have := laxdiscardM_le h5
      omega
    · intro e h; rw [hstep] at h; cases h

/-- Setting a position to an element with the same image under `f` leaves
the mapped list unchanged. -/
theorem map_set_of_get? {α β : Type _} (f : α → β) (l : List α) (i : Nat) (a b : α)
    (h : l.get? i = some b) (hf : f a = f b) :
    (l.set i a).map f = l.map f := by
  induction l generalizing i with
  | nil => simp at h
  | cons x xs ih =>
    cases i with
    | zero =>
      simp only [List.get?] at h
      cases h
      simp [List.set, hf]
    | succ j =>
      simp only [List.get?] at h
      simp [List.set, ih j h]

/-- Invariant of the `uniqVarsByName` loop: the index points each seen
name at an entry carrying that name, and unseen names occur nowhere. -/
def UniqInv (idx : String → Option Nat) (vars : List envvar) : Prop :=
  (∀ n i, idx n = some i → ∃ w, vars.get? i = some w ∧ w.name = n) ∧
  (∀ n, idx n = none → ∀ w ∈ vars, w.name ≠ n)

/-- The `uniqVarsByName` loop preserves name-distinctness. -/
theorem uniqGo_nodup (rest : List envvar) :
    ∀ nms vars idx, UniqInv idx vars → (vars.map (·.name)).Nodup →
      ((uniqGo rest nms vars idx).2.map (·.name)).Nodup := by
  induction rest with
  | nil => intro nms vars idx _ hnd; simpa [uniqGo] using hnd
  | cons v rest ih =>
    intro nms vars idx hinv hnd
    obtain ⟨hsome, hnone⟩ := hinv
    show ((uniqGo (v :: rest) nms vars idx).2.map (·.name)).Nodup
    rw [uniqGo]
    cases h : idx v.name with
    | none =>
      have hnotmem : v.name ∉ vars.map (·.name) := by
        intro hmem
        obtain ⟨w, hw, hwname⟩ := List.mem_map.mp hmem
        exact hnone v.name h w hw hwname
      apply ih
      · constructor
        · intro n i hi
          by_cases hn : n = v.name
          · subst hn
            have hlen : vars.length = i := by
              simpa [updateIdx] using hi
            subst hlen
            exact ⟨v, by simp, rfl⟩
          · have hi' : idx n = some i := by
              simpa [updateIdx, hn] using hi
            obtain ⟨w, hw, hwname⟩ := hsome n i hi'
            have hlt : i < vars.length := by
              by_contra hge
              rw [List.get?_eq_none.mpr (Nat.le_of_not_lt hge)] at hw
              exact Option.noConfusion hw
            exact ⟨w, by rw [List.get?_append hlt]; exact hw, hwname⟩
        · intro n hn w hw
          have hne : n ≠ v.name := by
            intro hcontr; subst hcontr
            simp [updateIdx] at hn
          have hn' : idx n = none := by
            simpa [updateIdx, hne] using hn
          rcases List.mem_append.mp hw with hw' | hw'
          · exact hnone n hn' w hw'
          · have : w = v := by simpa using hw'
            subst this
            intro hcontr; exact hne hcontr.symm
      · rw [List.map_append]
        simp only [List.map_cons, List.map_nil]
        rw [List.nodup_append]
        exact ⟨hnd, List.nodup_singleton _, by
          intro a ha hb
          simp only [List.mem_singleton] at hb
          subst hb
          exact hnotmem ha⟩
    | some i =>
      cases htv : v.tombstone with
      | false => simpa [htv] using ih nms vars idx ⟨hsome, hnone⟩ hnd
      | true =>
        obtain ⟨w0, hw0, hw0name⟩ := hsome v.name i h
        have hmapset : ((vars.set i v).map (·.name)) = vars.map (·.name) :=
          map_set_of_get? (·.name) vars i v w0 hw0 (by simpa using hw0name.symm)
        simp only [htv, if_true]
        apply ih
        · constructor
          · intro n j hj
            by_cases hij : j = i
            · subst hij
              obtain ⟨w1, hw1, hw1name⟩ := hsome n j hj
              have hww : w1 = w0 := by
                rw [hw0] at hw1
                exact (Option.some.inj hw1).symm
              have hn : n = v.name := by
                rw [← hw1name, hww, hw0name]
              have hlt : j < vars.length := by
                by_contra hge
                rw [List.get?_eq_none.mpr (Nat.le_of_not_lt hge)] at hw1
                exact Option.noConfusion hw1
              refine ⟨v, ?_, hn.symm⟩
              rw [List.get?_set_eq_of_lt v hlt]
            · obtain ⟨w1, hw1, hw1name⟩ := hsome n j hj
              exact ⟨w1, by rw [List.get?_set_ne v vars (Ne.symm hij)]; exact hw1, hw1name⟩
          · intro n hn w hw
            rcases List.mem_or_eq_of_mem_set hw with hw' | hw'
            · exact hnone n hn w hw'
            · subst hw'
              intro hcontr
              rw [hcontr] at h
              rw [h] at hn
              exact Option.noConfusion hn
        · rw [hmapset]; exact hnd

/-- C1: after `uniqVarsByName` and the tombstone-stripping pass, no two
assignments share a name and no assignment is a tombstone. -/
theorem merge_dedup_invariant (allvars : List envvar) :
    ((stripTombstones (uniqVarsByName allvars).2).map (·.name)).Nodup ∧
    ∀ v ∈ stripTombstones (uniqVarsByName allvars).2, v.tombstone = false := by
  constructor
  · have hnd : (((uniqVarsByName allvars).2).map (·.name)).Nodup := by
      apply uniqGo_nodup
      · exact ⟨fun n i hi => by simp at hi, fun n _ w hw => by simp at hw⟩
      · simp
    have hsub : (stripTombstones (uniqVarsByName allvars).2).Sublist
        (uniqVarsByName allvars).2 := List.filter_sublist _
    exact hnd.sublist (hsub.map (·.name))
  · intro v hv
    have := (List.mem_filter.mp hv).2
    simpa using this

/-- C2: for the source list `[raw "A=1", file "f" containing "A=2"]`,
priority sorting puts the raw source (bucket 0) before the file source
(bucket 3), the merge keeps the first assignment seen for `A` and discards
the later non-tombstone duplicate, so the final mapping binds `A` to
`"1"`. -/
theorem priority_raw_beats_file :
    finalVars (runPipeline prioWorld .anyinterp prioSources []) =
      some [⟨"A", "1", false, false⟩] := by decide

/-- C3: with a jsonMap source `\x7b"A": null\x7d` and a file source
defining `A=x`, the JSON bucket (1) is processed before the file bucket
(3), its tombstone for `A` wins the merge and is then stripped, so `A` is
absent from the final mapping. -/
theorem json_tombstone_deletes_file_value :
    finalVars (runPipeline tombWorld .anyinterp tombSources []) = some [] := by decide

/-- C5: a lax file `A=foo` then `B="$\x7bA\x7dbar"` (double-quoted, default
`maybe` policy) yields a final `B=foobar`; with `B='$\x7bA\x7dbar'`
(single-quoted) the final value of `B` is the literal `$\x7bA\x7dbar`. -/
theorem lax_interpolation_example :
    finalVars (runPipeline interpWorldDQ .anyinterp [laxSrc] []) =
      some [⟨"A", "foo", true, false⟩, ⟨"B", "foobar", true, false⟩] ∧
    finalVars (runPipeline interpWorldSQ .anyinterp [laxSrc] []) =
      some [⟨"A", "foo", true, false⟩, ⟨"B", "$\x7bA\x7dbar", false, false⟩] :=
  ⟨by decide, by decide⟩

/-- C7 (the code at the claim's failing input): `parseJsonMap` maps a JSON
number to the EMPTY string, not to its decimal text — `json.Unmarshal`
into `interface{}` yields `float64`, so the `case int` branch of the Go
type switch is dead code and numbers fall through to the zero value. The
`null` → tombstone, string → value and malformed → error parts behave as
the claim states. -/
theorem parseJsonMap_number_empty :
    parseJsonMap (some [("A", .jnum "5")]) = .ok [⟨"A", "", false, false⟩] ∧
    parseJsonMap (some [("A", .jnull)]) = .ok [⟨"A", "", false, true⟩] ∧
    parseJsonMap (some [("A", .jstr "x")]) = .ok [⟨"A", "x", false, false⟩] ∧
    parseJsonMap (none : Option (List (String × Jval))) = .error .jsonError := by
  decide

/-- C4 counterexample: the substituted value of an assignment is NOT
independent of the other assignments in its own batch — the Go loop adds
`vals[r.name] = subbed` before processing the next assignment of the same
batch, so changing `A`'s value inside the batch changes `B`'s substituted
value. -/
theorem substitutevars_batch_dependent :
    (substitutevars laxSrc [] []
        [⟨"A", "foo", true, false⟩, ⟨"B", "$\x7bA\x7dbar", true, false⟩] .anyinterp).get? 1 =
      some ⟨"B", "foobar", true, false⟩ ∧
    (substitutevars laxSrc [] []
        [⟨"A", "baz", true, false⟩, ⟨"B", "$\x7bA\x7dbar", true, false⟩] .anyinterp).get? 1 =
      some ⟨"B", "bazbar", true, false⟩ ∧
    ("foobar" : String) ≠ "bazbar" := by
  refine ⟨by decide, by decide, by decide⟩

/-- C4 (amended): the lookup table for an assignment is the OS environment
overlaid with the assignments of strictly earlier sources AND the
already-substituted assignments earlier in the same batch: processing
`r :: rs` substitutes `r` against the table built from `osEnviron` and
`env` alone, and then processes the tail exactly as if `r`'s substituted
result had been merged into `env`. -/
theorem substitutevars_table (src : varsource) (osEnviron : List String)
    (env : List envvar) (r : envvar) (rs : List envvar) (vm : varpattern) :
    substitutevars src osEnviron env (r :: rs) vm =
      (let level := src.getsublevel
       let r' : envvar :=
         if level ≠ src.kind.defaultsub then
           { r with allowsubs := decide (level ≠ .neversub) }
         else r
       let vals := buildVals (buildVals (fun _ => none) (osEnviron.map parsevar)) env
       let v : envvar :=
         ⟨r'.name, if r'.allowsubs then interpolate vm vals r'.val else r'.val,
          r'.allowsubs, r'.tombstone⟩
       v :: substitutevars src osEnviron (env ++ [v]) rs vm) := by
  by_cases hc : src.getsublevel ≠ src.kind.defaultsub
  · simp only [substitutevars, if_pos hc, List.map_cons, substGo, buildVals,
      List.foldl_append, List.foldl_cons, List.foldl_nil]
  · simp only [substitutevars, if_neg hc, substGo, buildVals,
      List.foldl_append, List.foldl_cons, List.foldl_nil]

/-- The per-assignment loop substitutes values but copies each
input assignment's eligibility flag unchanged. -/
theorem substGo_allowsubs (vm : varpattern) :
    ∀ (l : List envvar) (vals : String → Option String),
      (∀ r ∈ l, r.allowsubs = true) →
      ∀ v ∈ substGo vm vals l, v.allowsubs = true := by
  intro l
  induction l with
  | nil => intro vals _ v hv; simp [substGo] at hv
  | cons r rs ih =>
    intro vals hall v hv
    rw [substGo] at hv
    rcases List.mem_cons.mp hv with hv' | hv'
    · subst hv'
      exact hall r (List.mem_cons_self r rs)
    · exact ih _ (fun x hx => hall x (List.mem_cons_of_mem r hx)) v hv'

/-- C6 (amended): a `forced` policy override DOES apply interpolation to
single-quoted values — for a lax-file source with a `forcesub` override,
`substitutevars` processes the batch exactly as if every assignment
(single-quoted ones included) were substitution-eligible, and every
produced assignment carries `allowsubs = true`. The quote kind only wins
under the kind-default `maybe` policy. -/
theorem forced_policy_wins (src : varsource) (h1 : src.kind = .laxfile)
    (h2 : src.sublevel = some .forcesub) (osEnviron : List String)
    (env raw : List envvar) (vm : varpattern) :
    substitutevars src osEnviron env raw vm =
      substitutevars src osEnviron env
        (raw.map fun r => { r with allowsubs := true }) vm ∧
    ∀ v ∈ substitutevars src osEnviron env raw vm, v.allowsubs = true := by
  have hlevel : src.getsublevel = .forcesub := by
    simp [varsource.getsublevel, h2]
  have hne : src.getsublevel ≠ src.kind.defaultsub := by
    rw [hlevel, h1]
    simp [sourcetype.defaultsub]
  constructor
  · simp only [substitutevars, if_pos hne, List.map_map]
    rfl
  · simp only [substitutevars, if_pos hne]
    apply substGo_allowsubs
    intro r hr
    rcases List.mem_map.mp hr with ⟨r0, _, hr0⟩
    rw [← hr0, hlevel]
    rfl

/-- Witness for the amended C6 theorem at a concrete forced source and a
concrete single-quoted (ineligible) assignment. -/
theorem forced_policy_wins_witness :
    (substitutevars laxSrcForced [] [] [⟨"B", "x", false, false⟩] .anyinterp =
      substitutevars laxSrcForced [] []
        ([(⟨"B", "x", false, false⟩ : envvar)].map fun r => { r with allowsubs := true }) .anyinterp) ∧
    ∀ v ∈ substitutevars laxSrcForced [] [] [⟨"B", "x", false, false⟩] .anyinterp,
      v.allowsubs = true :=
  forced_policy_wins laxSrcForced rfl rfl [] [] [⟨"B", "x", false, false⟩] .anyinterp

/-- C6 counterexample: a single-quoted lax value (parsed with
`allowsubs = false`) IS interpolated under a `forced` policy override —
`substitutevars` overwrites every eligibility flag with `true` whenever
the resolved level differs from the kind default, so the policy wins over
the quote kind. -/
theorem forced_overrides_single_quote :
    parseLaxContent "B='$\x7bA\x7dbar'" =
      .ok [⟨"B", "$\x7bA\x7dbar", false, false⟩] ∧
    substitutevars laxSrcForced [] [⟨"A", "foo", false, false⟩]
        [⟨"B", "$\x7bA\x7dbar", false, false⟩] .anyinterp =
      [⟨"B", "foobar", true, false⟩] :=
  ⟨by decide, by decide⟩

/-! ### Termination and error characterization of the lax parser -/

/-- Unfolding the parser one iteration on a `skip` step. -/
theorem parseLaxAux_succ_skip {fuel : Nat} {d r : List Char} (hd : d ≠ [])
    (h : laxStep d = .skip r) :
    parseLaxAux (fuel + 1) d = parseLaxAux fuel r := by
  cases d with
  | nil => exact absurd rfl hd
  | cons c t =>
    rw [parseLaxAux.eq_def]
    dsimp only
    rw [h]

/-- Fuel equal to the buffer length always suffices: the parser never runs
out before the buffer is exhausted (each iteration strictly shortens it). -/
theorem parseLaxAux_total : ∀ (fuel : Nat) (d : List Char), d.length ≤ fuel →
    (parseLaxAux fuel d).isSome := by
  intro fuel
  induction fuel with
  | zero =>
    intro d h
    have hnil : d = [] := List.eq_nil_of_length_eq_zero (Nat.le_zero.mp h)
    subst hnil
    simp [parseLaxAux]
  | succ n ih =>
    intro d h
    cases d with
    | nil => simp [parseLaxAux]
    | cons c t =>
      have hcs := laxStep_cases (c :: t) (by simp)
      rw [parseLaxAux.eq_def]
      dsimp only
      simp only [List.length_cons] at h
      cases hs : laxStep (c :: t) with
      | done => simp
      | skip rest =>
        have hlt := hcs.1 rest hs
        simp only [List.length_cons] at hlt
        exact ih rest (by omega)
      | emit v rest =>
        have hlt := hcs.2.1 v rest hs
        simp only [List.length_cons] at hlt
        have hsome := ih rest (by omega)
        obtain ⟨y, hy⟩ := Option.isSome_iff_exists.mp hsome
        simp [hy]
      | fail e => simp

/-- The only errors the lax parser ever returns are the two
unclosed-quote errors. -/
theorem parseLaxAux_error_unclosed : ∀ (fuel : Nat) (d : List Char) (e : PError),
    parseLaxAux fuel d = some (.error e) →
    e = .unclosedSingle ∨ e = .unclosedDouble := by
  intro fuel
  induction fuel with
  | zero =>
    intro d e h
    cases d with
    | nil => simp [parseLaxAux] at h
    | cons c t => simp [parseLaxAux] at h
  | succ n ih =>
    intro d e h
    cases d with
    | nil => simp [parseLaxAux] at h
    | cons c t =>
      have hcs := laxStep_cases (c :: t) (by simp)
      rw [parseLaxAux.eq_def] at h
      dsimp only at h
      cases hs : laxStep (c :: t) with
      | done =>
        rw [hs] at h
        dsimp only at h
        simp at h
      | skip rest =>
        rw [hs] at h
        dsimp only at h
        exact ih rest e h
      | emit v rest =>
        rw [hs] at h
        dsimp only at h
        cases hx : parseLaxAux n rest with
        | none => rw [hx] at h; simp at h
        | some y =>
          rw [hx] at h
          cases y with
          | ok l => simp [Except.map] at h
          | error e2 =>
            have he2 : e2 = e := by simpa [Except.map] using h
            subst he2
            exact ih rest e2 hx
      | fail e2 =>
        rw [hs] at h
        dsimp only at h
        have he2 : e2 = e := by simpa using h
        subst he2
        exact hcs.2.2 e2 hs

/-- The parser's result does not depend on the fuel, as long as the fuel
covers the buffer length. -/
theorem parseLaxAux_irrel : ∀ (f1 f2 : Nat) (d : List Char), d.length ≤ f1 →
    d.length ≤ f2 → parseLaxAux f1 d = parseLaxAux f2 d := by
  intro f1
  induction f1 with
  | zero =>
    intro f2 d h1 h2
    have hnil : d = [] := List.eq_nil_of_length_eq_zero (Nat.le_zero.mp h1)
    subst hnil
    cases f2 <;> simp [parseLaxAux]
  | succ n ih =>
    intro f2 d h1 h2
    cases d with
    | nil => cases f2 <;> simp [parseLaxAux]
    | cons c t =>
      cases f2 with
      | zero =>
        simp only [List.length_cons] at h2
        omega
      | succ m =>
        have hcs := laxStep_cases (c :: t) (by simp)
        simp only [List.length_cons] at h1 h2
        conv_lhs => rw [parseLaxAux.eq_def]
        conv_rhs => rw [parseLaxAux.eq_def]
        dsimp only
        cases hs : laxStep (c :: t) with
        | done => rfl
        | skip rest =>
          have hlt := hcs.1 rest hs
          simp only [List.length_cons] at hlt
          show parseLaxAux n rest = parseLaxAux m rest
          exact ih m rest (by omega) (by omega)
        | emit v rest =>
          have hlt := hcs.2.1 v rest hs
          simp only [List.length_cons] at hlt
          show (parseLaxAux n rest).map (Except.map (v :: ·)) =
            (parseLaxAux m rest).map (Except.map (v :: ·))
          rw [ih m rest (by omega) (by omega)]
        | fail e => rfl

/-- An invalid line (no comment, not blank, no name) is discarded through
its newline and parsing continues. -/
theorem laxStep_invalid {d : List Char} (hd : d ≠ []) (hc : laxcommentM d = none)
    (he : laxemptyM d = none) (hid : laxIDM d = none) :
    laxStep d = .skip (((laxdiscardM d).map Prod.snd).getD d) := by
  cases d with
  | nil => exact absurd rfl hd
  | cons c t =>
    rw [laxStep.eq_def]
    dsimp only
    simp only [hc, he, hid]

/-- `takeWhile` passes over a fully-matching block. -/
theorem takeWhile_append_all {p : Char → Bool} : ∀ (l m : List Char),
    (∀ x ∈ l, p x = true) → (l ++ m).takeWhile p = l ++ m.takeWhile p := by
  intro l
  induction l with
  | nil => intro m _; simp
  | cons c t ih =>
    intro m h
    have hc : p c = true := h c (List.mem_cons_self c t)
    simp only [List.cons_append, List.takeWhile_cons, hc, if_true]
    rw [ih m (fun x hx => h x (List.mem_cons_of_mem c hx))]

/-- `dropWhile` passes over a fully-matching block. -/
theorem dropWhile_append_all {p : Char → Bool} : ∀ (l m : List Char),
    (∀ x ∈ l, p x = true) → (l ++ m).dropWhile p = m.dropWhile p := by
  intro l
  induction l with
  | nil => intro m _; simp
  | cons c t ih =>
    intro m h
    have hc : p c = true := h c (List.mem_cons_self c t)
    simp only [List.cons_append, List.dropWhile_cons, hc, if_true]
    exact ih m (fun x hx => h x (List.mem_cons_of_mem c hx))

/-- `laxdiscard` on a newline-free line followed by a newline captures the
line and leaves exactly the remainder. -/
theorem laxdiscard_of_line {l rest : List Char} (h : ∀ x ∈ l, (x != '\n') = true) :
    laxdiscardM (l ++ '\n' :: rest) = some (l, rest) := by
  have h1 : (l ++ '\n' :: rest).takeWhile (· != '\n') = l := by
    rw [takeWhile_append_all l _ h]
    simp [List.takeWhile_cons]
  have h2 : (l ++ '\n' :: rest).dropWhile (· != '\n') = '\n' :: rest := by
    rw [dropWhile_append_all l _ h]
    simp [List.dropWhile_cons]
  simp only [laxdiscardM]
  rw [h1, h2]
  simp

/-- A newline-rejecting `dropWhile` can never pass the first newline: it
acts on the line part of the buffer only. -/
theorem dropWhile_append_split {p : Char → Bool} (hp : p '\n' = false)
    (l rest : List Char) :
    (l ++ '\n' :: rest).dropWhile p = l.dropWhile p ++ '\n' :: rest := by
  induction l with
  | nil => simp [List.dropWhile_cons, hp]
  | cons c t ih =>
    by_cases hc : p c
    · simp [List.dropWhile_cons, hc, ih]
    · simp [List.dropWhile_cons, hc]

/-- If the first six characters of a buffer whose line part is `l2` spell
`export`, the line part is at least six characters long (a newline cannot
occur inside `export`). -/
theorem take6_export_le {l2 rest : List Char}
    (h : (l2 ++ '\n' :: rest).take 6 = "export".data) : 6 ≤ l2.length := by
  by_contra hlt
  push_neg at hlt
  have hmem : '\n' ∈ (l2 ++ '\n' :: rest).take 6 := by
    rw [List.take_append_eq_append_take]
    refine List.mem_append.mpr (Or.inr ?_)
    cases h6 : 6 - l2.length with
    | zero => omega
    | succ k =>
      rw [List.take_succ_cons]
      exact List.mem_cons_self _ _
  rw [h] at hmem
  exact absurd hmem (by decide)

/-- A `laxID` match on a buffer whose first line is newline-free consumes
only characters of that line: the residue is a (newline-free) remainder of
the line followed by the untouched newline and tail. All the pieces the
matcher trims (horizontal space, the `export` keyword, name characters)
exclude newlines. -/
theorem laxIDM_line_split {l rest nm d1 : List Char}
    (hl : ∀ x ∈ l, (x != '\n') = true)
    (h : laxIDM (l ++ '\n' :: rest) = some (nm, d1)) :
    ∃ l1, d1 = l1 ++ '\n' :: rest ∧ ∀ x ∈ l1, (x != '\n') = true := by
  have hsplitHS : ∀ (m : List Char), (m ++ '\n' :: rest).dropWhile isHS =
      m.dropWhile isHS ++ '\n' :: rest :=
    fun m => dropWhile_append_split (by decide) m rest
  have hsplitName : ∀ (m : List Char), (m ++ '\n' :: rest).dropWhile isNameChar =
      m.dropWhile isNameChar ++ '\n' :: rest :=
    fun m => dropWhile_append_split (by decide) m rest
  simp only [laxIDM] at h
  rw [hsplitHS l] at h
  split at h
  · -- preferred branch: the `export` keyword was recognised
    rename_i hexp
    simp only [Bool.and_eq_true] at hexp
    obtain ⟨htakeb, -⟩ := hexp
    have htake := of_decide_eq_true htakeb
    have h6 : 6 ≤ (l.dropWhile isHS).length := take6_export_le htake
    have hdrop : (l.dropWhile isHS ++ '\n' :: rest).drop 6 =
        (l.dropWhile isHS).drop 6 ++ '\n' :: rest := by
      rw [List.drop_append_eq_append_drop]
      have h0 : 6 - (l.dropWhile isHS).length = 0 := by omega
      rw [h0]
      simp
    rw [hdrop, hsplitHS ((l.dropWhile isHS).drop 6)] at h
    split at h
    · -- no name after `export`: fall back to reading the name directly
      split at h
      · cases h
      · cases h
        refine ⟨(l.dropWhile isHS).dropWhile isNameChar, hsplitName _, ?_⟩
        intro x hx
        exact hl x ((List.dropWhile_sublist isHS).subset
          ((List.dropWhile_sublist isNameChar).subset hx))
    · cases h
      refine ⟨(((l.dropWhile isHS).drop 6).dropWhile isHS).dropWhile isNameChar,
        hsplitName _, ?_⟩
      intro x hx
      exact hl x ((List.dropWhile_sublist isHS).subset
        (List.drop_subset 6 _
          ((List.dropWhile_sublist isHS).subset
            ((List.dropWhile_sublist isNameChar).subset hx))))
  · -- no `export` keyword: the name is read from the start
    split at h
    · cases h
    · cases h
      refine ⟨(l.dropWhile isHS).dropWhile isNameChar, hsplitName _, ?_⟩
      intro x hx
      exact hl x ((List.dropWhile_sublist isHS).subset
        ((List.dropWhile_sublist isNameChar).subset hx))

/-- A line with a name that is not followed by `=`/comment/EOL is
discarded through its newline (the inner `Invalid line` branch) and
parsing continues. -/
theorem laxStep_invalid_after_name {d nm d1 : List Char} (hd : d ≠ [])
    (hc : laxcommentM d = none) (he : laxemptyM d = none)
    (hid : laxIDM d = some (nm, d1)) (h1 : laxcommentM d1 = none)
    (h2 : laxemptyM d1 = none) (h3 : laxequalsM d1 = none) :
    laxStep d = .skip (((laxdiscardM d1).map Prod.snd).getD d1) := by
  cases d with
  | nil => exact absurd rfl hd
  | cons c t =>
    rw [laxStep.eq_def]
    dsimp only
    simp only [hc, he, hid, h1, h2, h3]

/-- C8: `parseLax` returns an error only on an I/O error reading the
origin or on an unterminated quoted value; any other invalid line — one
with no parsable name, or one whose name is not followed by
`=`/comment/EOL — is discarded (after a suppressible warning) and parsing
continues at the next line without an error. -/
theorem parseLax_error_taxonomy :
    (∀ (w : World) (src : varsource) (e : PError), src.kind = .laxfile →
        sourceParse w src = .error e →
        e = .ioError ∨ e = .unclosedSingle ∨ e = .unclosedDouble) ∧
    (∀ (l rest : List Char), (∀ x ∈ l, (x != '\n') = true) →
        laxcommentM (l ++ '\n' :: rest) = none →
        laxemptyM (l ++ '\n' :: rest) = none →
        laxIDM (l ++ '\n' :: rest) = none →
        parseLaxM (l ++ '\n' :: rest) = parseLaxM rest) ∧
    (∀ (l rest nm d1 : List Char), (∀ x ∈ l, (x != '\n') = true) →
        laxcommentM (l ++ '\n' :: rest) = none →
        laxemptyM (l ++ '\n' :: rest) = none →
        laxIDM (l ++ '\n' :: rest) = some (nm, d1) →
        laxcommentM d1 = none →
        laxemptyM d1 = none →
        laxequalsM d1 = none →
        parseLaxM (l ++ '\n' :: rest) = parseLaxM rest) := by
  refine ⟨?_, ?_, ?_⟩
  · intro w src e hk h
    obtain ⟨dat, k, ex, op, sl⟩ := src
    simp only at hk
    subst hk
    simp only [sourceParse] at h
    cases hf : w.files dat with
    | none =>
      rw [hf] at h
      dsimp only at h
      cases h
      exact Or.inl rfl
    | some content =>
      rw [hf] at h
      dsimp only at h
      unfold parseLaxContent parseLaxM at h
      cases hx : parseLaxAux content.data.length content.data with
      | none => rw [hx] at h; simp at h
      | some y =>
        rw [hx] at h
        simp only [Option.getD_some] at h
        subst h
        exact Or.inr (parseLaxAux_error_unclosed _ _ e hx)
  · intro l rest hl hc he hid
    have hne : l ++ '\n' :: rest ≠ [] := by simp
    have hstep : laxStep (l ++ '\n' :: rest) = .skip rest := by
      rw [laxStep_invalid hne hc he hid, laxdiscard_of_line hl]
      rfl
    have hlen : (l ++ '\n' :: rest).length = (l.length + rest.length) + 1 := by
      simp only [List.length_append, List.length_cons]
      omega
    unfold parseLaxM
    rw [hlen, parseLaxAux_succ_skip hne hstep,
      parseLaxAux_irrel (l.length + rest.length) rest.length rest (by omega) (Nat.le_refl _)]
  · intro l rest nm d1 hl hc he hid h1 h2 h3
    obtain ⟨l1, hd1eq, hl1⟩ := laxIDM_line_split hl hid
    subst hd1eq
    have hne : l ++ '\n' :: rest ≠ [] := by simp
    have hstep : laxStep (l ++ '\n' :: rest) = .skip rest := by
      rw [laxStep_invalid_after_name hne hc he hid h1 h2 h3, laxdiscard_of_line hl1]
      rfl
    have hlen : (l ++ '\n' :: rest).length = (l.length + rest.length) + 1 := by
      simp only [List.length_append, List.length_cons]
      omega
    unfold parseLaxM
    rw [hlen, parseLaxAux_succ_skip hne hstep,
      parseLaxAux_irrel (l.length + rest.length) rest.length rest (by omega) (Nat.le_refl _)]

/-- Witness for the C8 theorem: a missing file reports the I/O error; the
nameless invalid line `=x` is discarded with parsing resuming at `A=1`;
and the name-then-junk invalid line `FOO bar` is likewise discarded with
parsing resuming at `A=1`. -/
theorem parseLax_error_taxonomy_witness :
    (PError.ioError = .ioError ∨ PError.ioError = .unclosedSingle ∨
      PError.ioError = .unclosedDouble) ∧
    parseLaxM ("=x".data ++ '\n' :: "A=1".data) = parseLaxM "A=1".data ∧
    parseLaxM ("FOO bar".data ++ '\n' :: "A=1".data) = parseLaxM "A=1".data := by
  refine ⟨?_, ?_, ?_⟩
  · exact parseLax_error_taxonomy.1 ioWorld ⟨"f", .laxfile, false, false, none⟩
      .ioError rfl (by decide)
  · exact parseLax_error_taxonomy.2.1 "=x".data "A=1".data (by decide) (by decide)
      (by decide) (by decide)
  · exact parseLax_error_taxonomy.2.2 "FOO bar".data "A=1".data "FOO".data
      (" bar".data ++ '\n' :: "A=1".data) (by decide) (by decide) (by decide)
      (by decide) (by decide) (by decide) (by decide)

/-- C10: `parseLax` terminates on every finite input: every `skip`/`emit`
iteration of the scanning loop strictly shortens the buffer, so fuel equal
to the buffer length always suffices (the loop is well-founded on the
buffer length). -/
theorem parseLax_terminates :
    (∀ d : List Char, d ≠ [] →
      (∀ r, laxStep d = .skip r → r.length < d.length) ∧
      (∀ v r, laxStep d = .emit v r → r.length < d.length)) ∧
    (∀ (fuel : Nat) (d : List Char), d.length ≤ fuel → (parseLaxAux fuel d).isSome) :=
  ⟨fun d hd => ⟨(laxStep_cases d hd).1, (laxStep_cases d hd).2.1⟩, parseLaxAux_total⟩

/-- Witness for the C10 theorem: one concrete `skip` iteration shortens
the buffer, and the parser completes on a concrete input within
length-many iterations. -/
theorem parseLax_terminates_witness :
    "A=1".data.length < ("# c\nA=1".data).length ∧
    (parseLaxAux "A=1".data.length "A=1".data).isSome := by
  constructor
  · exact (parseLax_terminates.1 "# c\nA=1".data (by decide)).1 "A=1".data (by decide)
  · exact parseLax_terminates.2 "A=1".data.length "A=1".data (Nat.le_refl _)

/-! ### Failure handling in the source-processing loop -/

/-- Substituting an empty batch yields no assignments. -/
theorem substitutevars_nil (src : varsource) (osEnviron : List String)
    (env : List envvar) (vm : varpattern) :
    substitutevars src osEnviron env [] vm = [] := by
  by_cases hc : src.getsublevel ≠ src.kind.defaultsub <;>
    simp [substitutevars, hc, substGo]

/-- C9: when a source's parse fails after a successfully-processed block:
an explicit source aborts the whole run with the error; an optional source
is skipped (the loop continues exactly as if the source were absent); a
non-explicit non-optional source halts processing immediately, keeps the
assignments already merged, and turns itself plus every unprocessed source
into the command line (prepended to the command split off by `--`). -/
theorem mainLoop_failure (p : varsource → Except PError (List envvar))
    (osEnviron : List String) (vm : varpattern) (pre : List varsource)
    (f : varsource) (rest : List varsource) (vars : List envvar)
    (cmd : List String) (e : PError)
    (hpre : ∀ s ∈ pre, ∃ vs, p s = .ok vs) (hf : p f = .error e) :
    mainLoop p osEnviron vm (pre ++ f :: rest) vars cmd =
      if f.explicit then .fatal e
      else if f.optional then mainLoop p osEnviron vm (pre ++ rest) vars cmd
      else .finished (accumVars p osEnviron vm pre vars)
        ((f :: rest).map (·.data) ++ cmd) := by
  revert hpre
  induction pre generalizing vars with
  | nil =>
    intro _
    simp only [List.nil_append, accumVars]
    rw [mainLoop, hf]
    dsimp only
    by_cases hex : f.explicit
    · simp [hex]
    · by_cases hop : f.optional
      · simp [hex, hop, substitutevars_nil]
      · simp [hex, hop]
  | cons s pre ih =>
    intro hpre
    obtain ⟨vs, hs⟩ := hpre s (List.mem_cons_self s pre)
    simp only [List.cons_append]
    rw [mainLoop, hs]
    dsimp only
    rw [ih _ (fun x hx => hpre x (List.mem_cons_of_mem s hx))]
    by_cases hex : f.explicit
    · simp [hex]
    · by_cases hop : f.optional
      · simp only [hex, hop, if_false, if_true, Bool.false_eq_true]
        conv_rhs => rw [mainLoop, hs]
      · simp only [hex, hop, if_false, Bool.false_eq_true]
        rw [accumVars, hs]
        dsimp only [Except.toOption, Option.getD]

/-- Witness for the C9 theorem: after one successfully-parsed source, an
explicit failing source aborts the run with its error. -/
theorem mainLoop_failure_witness :
    mainLoop (fun s => if s.explicit then Except.error PError.ioError
        else Except.ok ([] : List envvar)) [] .anyinterp
      [⟨"A=1", .raw, false, false, none⟩, ⟨"bad", .laxfile, true, false, none⟩]
      [] [] = .fatal .ioError := by
  have h := mainLoop_failure
    (fun s => if s.explicit then Except.error PError.ioError
      else Except.ok ([] : List envvar)) [] .anyinterp
    [⟨"A=1", .raw, false, false, none⟩] ⟨"bad", .laxfile, true, false, none⟩
    [] [] [] .ioError
    (by
      intro s hs
      refine ⟨[], ?_⟩
      have hseq : s = ⟨"A=1", .raw, false, false, none⟩ := by simpa using hs
      subst hseq
      rfl)
    rfl
  simpa using h

end Dotenv
